/-
Verification of drl_algos utility functions (drl_algos/utils.py) and the
replay-buffer data structure against their natural-language specification.

The Python functions are shallowly embedded: numeric tensors become lists of
rationals (exact arithmetic in place of floating point), ordered dicts become
association lists preserving insertion order, and in-place mutation becomes
explicit state passing.
-/
import Mathlib

namespace DrlAlgos

/-! ## soft_update (utils.py lines 174-180)

`soft_update(source, target, tau)` iterates over `zip(target.parameters(),
source.parameters())` and overwrites each target parameter in place with
`target_param * (1 - tau) + source_param * tau`.

A network pair is modelled as a `NetState` holding the source and target
flattened parameter lists; the loop is a fold over the enumerated
zipped parameter pairs, each step writing one slot of the target list. -/

/-- The mutable parameter store of the two networks involved in a
`soft_update` call: the parameters of the source and of the target. -/
structure NetState where
  source : List ℚ
  target : List ℚ

/-- One iteration of the `soft_update` loop: `p = (i, (target_param,
source_param))`; writes `target_param * (1 - tau) + source_param * tau`
into slot `i` of the target parameter store (`target_param.data.copy_`). -/
def soft_update_write (tau : ℚ) (st : NetState) (p : ℕ × (ℚ × ℚ)) : NetState :=
  { st with target := st.target.set p.1 (p.2.1 * (1 - tau) + p.2.2 * tau) }

/-- The call `soft_update(source, target, tau)`: fold of `soft_update_write` over the
enumerated list `zip(target_params, source_params)`. -/
def soft_update (st : NetState) (tau : ℚ) : NetState :=
  ((st.target.zip st.source).enum).foldl (soft_update_write tau) st

/-- The loop writes only into the target store; the source component of the
state is invariant under the fold. -/
theorem soft_update_foldl_source (tau : ℚ) (l : List (ℕ × (ℚ × ℚ))) (st : NetState) :
    (l.foldl (soft_update_write tau) st).source = st.source := by
  induction l generalizing st with
  | nil => rfl
  | cons p l ih => simp [List.foldl_cons, ih, soft_update_write]

/-- The target component of the fold equals a fold acting on the target list
alone. -/
theorem soft_update_foldl_target (tau : ℚ) (l : List (ℕ × (ℚ × ℚ))) (st : NetState) :
    (l.foldl (soft_update_write tau) st).target
      = l.foldl (fun tgt p => tgt.set p.1 (p.2.1 * (1 - tau) + p.2.2 * tau)) st.target := by
  induction l generalizing st with
  | nil => rfl
  | cons p l ih => simp [List.foldl_cons, ih, soft_update_write]

/-- Writing at indices `k+1, k+2, ...` leaves the head of the list alone. -/
theorem foldl_set_enumFrom_cons (f : ℚ → ℚ → ℚ) (l : List (ℚ × ℚ)) (k : ℕ)
    (a : ℚ) (tgt : List ℚ) :
    (l.enumFrom (k + 1)).foldl (fun t p => t.set p.1 (f p.2.1 p.2.2)) (a :: tgt)
      = a :: (l.enumFrom k).foldl (fun t p => t.set p.1 (f p.2.1 p.2.2)) tgt := by
  induction l generalizing k a tgt with
  | nil => rfl
  | cons q l ih =>
      simp only [List.enumFrom, List.foldl_cons, List.set]
      exact ih (k + 1) a (tgt.set k (f q.1 q.2))

/-- Characterization of the in-place update loop: folding the per-slot writes
over the enumerated zip of target and source parameters rewrites the first
`min |target| |source|` slots to the blended values and leaves the rest. -/
theorem foldl_set_enum_zip (f : ℚ → ℚ → ℚ) (tgt src : List ℚ) :
    ((tgt.zip src).enum).foldl (fun t p => t.set p.1 (f p.2.1 p.2.2)) tgt
      = tgt.zipWith f src ++ tgt.drop (min tgt.length src.length) := by
  induction tgt generalizing src with
  | nil => cases src <;> rfl
  | cons t ts ih =>
      cases src with
      | nil => rfl
      | cons s ss =>
          have h1 : ((t :: ts).zip (s :: ss)).enum
              = (0, (t, s)) :: (ts.zip ss).enumFrom (0 + 1) := rfl
          have h2 : (t :: ts).set 0 (f t s) = f t s :: ts := rfl
          rw [h1, List.foldl_cons, h2,
            foldl_set_enumFrom_cons f (ts.zip ss) 0 (f t s) ts,
            show (ts.zip ss).enumFrom 0 = (ts.zip ss).enum from rfl, ih ss]
          simp [Nat.succ_min_succ]

/-- Shared characterization: for parameter lists of equal length the updated
target list is the pointwise blend of the old target and the source. -/
theorem soft_update_target_eq (st : NetState) (tau : ℚ)
    (h : st.target.length = st.source.length) :
    (soft_update st tau).target
      = st.target.zipWith (fun tp sp => (1 - tau) * tp + tau * sp) st.source := by
  unfold soft_update
  rw [soft_update_foldl_target,
    foldl_set_enum_zip (fun tp sp => tp * (1 - tau) + sp * tau) st.target st.source,
    h, min_self, ← h, List.drop_length, List.append_nil]
  have hf : (fun tp sp : ℚ => tp * (1 - tau) + sp * tau)
      = fun tp sp => (1 - tau) * tp + tau * sp := by
    funext a b; ring
  rw [hf]

/-- The update preserves the length of the target parameter list. -/
theorem soft_update_target_length (st : NetState) (tau : ℚ)
    (h : st.target.length = st.source.length) :
    (soft_update st tau).target.length = st.target.length := by
  rw [soft_update_target_eq st tau h, List.length_zipWith, h, min_self]

/-- Per-slot formula for the updated target parameter. -/
theorem soft_update_entry (st : NetState) (tau : ℚ)
    (h : st.target.length = st.source.length) (i : ℕ) (hi : i < st.target.length) :
    (soft_update st tau).target.getD i 0
      = st.target.getD i 0 * (1 - tau) + st.source.getD i 0 * tau := by
  have hi2 : i < st.source.length := h ▸ hi
  have hi3 : i < (soft_update st tau).target.length :=
    (soft_update_target_length st tau h) ▸ hi
  rw [List.getD_eq_getElem _ _ hi3, List.getD_eq_getElem _ _ hi,
    List.getD_eq_getElem _ _ hi2]
  simp only [soft_update_target_eq st tau h, List.getElem_zipWith]
  ring

/-- C1: for parameter lists of equal length, after `soft_update` every target
parameter equals `(1 - tau) * old_target + tau * source`, slot by slot. -/
theorem soft_update_polyak (st : NetState) (tau : ℚ)
    (h : st.target.length = st.source.length) :
    (soft_update st tau).target
      = st.target.zipWith (fun tp sp => (1 - tau) * tp + tau * sp) st.source :=
  soft_update_target_eq st tau h

/-- Witness for C1: the end-to-end scenario of the spec. tau = 1/10, one target
parameter 10, one source parameter 0; one call yields target parameter 9. -/
theorem soft_update_polyak_witness :
    (soft_update ⟨[0], [10]⟩ (1/10)).target = [9] := by
  rw [soft_update_polyak ⟨[0], [10]⟩ (1/10) rfl]
  norm_num

/-- C2: with tau = 0 the target parameters are unchanged; with tau = 1 they
become a hard copy of the source; for 0 < tau < 1 a target parameter equal to
the source stays fixed and one that differs moves strictly closer to the
source value. -/
theorem soft_update_tau_range (st : NetState)
    (h : st.target.length = st.source.length) :
    (soft_update st 0).target = st.target
    ∧ (soft_update st 1).target = st.source
    ∧ ∀ tau : ℚ, 0 < tau → tau < 1 → ∀ i, i < st.target.length →
        (st.target.getD i 0 = st.source.getD i 0 →
          (soft_update st tau).target.getD i 0 = st.target.getD i 0)
        ∧ (st.target.getD i 0 ≠ st.source.getD i 0 →
          |(soft_update st tau).target.getD i 0 - st.source.getD i 0|
            < |st.target.getD i 0 - st.source.getD i 0|) := by
  refine ⟨?_, ?_, ?_⟩
  · rw [soft_update_target_eq st 0 h]
    refine List.ext_getElem (by simp [List.length_zipWith, h]) fun i h1 h2 => ?_
    simp [List.getElem_zipWith]
  · rw [soft_update_target_eq st 1 h]
    refine List.ext_getElem (by simp [List.length_zipWith, h]) fun i h1 h2 => ?_
    simp [List.getElem_zipWith]
  · intro tau ht0 ht1 i hi
    have he := soft_update_entry st tau h i hi
    constructor
    · intro heq
      rw [he, heq]; ring
    · intro hne
      rw [he]
      have key : st.target.getD i 0 * (1 - tau) + st.source.getD i 0 * tau
          - st.source.getD i 0
          = (st.target.getD i 0 - st.source.getD i 0) * (1 - tau) := by ring
      rw [key, abs_mul, abs_of_pos (by linarith : (0:ℚ) < 1 - tau)]
      have habs : 0 < |st.target.getD i 0 - st.source.getD i 0| :=
        abs_pos.2 (sub_ne_zero.2 hne)
      nlinarith

/-- Witness for C2: source parameter 0, target parameter 10; tau = 0 keeps
the target at 10, tau = 1 copies the source, and tau = 1/2 moves the target
strictly closer to 0. -/
theorem soft_update_tau_range_witness :
    (soft_update ⟨[0], [10]⟩ 0).target = [10]
    ∧ (soft_update ⟨[0], [10]⟩ 1).target = [0]
    ∧ |(soft_update ⟨[0], [10]⟩ (1/2)).target.getD 0 0 - ([0] : List ℚ).getD 0 0|
        < |([10] : List ℚ).getD 0 0 - ([0] : List ℚ).getD 0 0| := by
  obtain ⟨h0, h1, h2⟩ := soft_update_tau_range ⟨[0], [10]⟩ rfl
  exact ⟨h0, h1, (h2 (1/2) (by norm_num) (by norm_num) 0 (by norm_num)).2 (by norm_num)⟩

/-- C3: `soft_update` mutates only the parameters of the target network;
the source parameter list is unchanged by the call. -/
theorem soft_update_source_unchanged (st : NetState) (tau : ℚ) :
    (soft_update st tau).source = st.source :=
  soft_update_foldl_source tau _ st

/-! ## to_tensor_batch and _filter_batch (utils.py lines 153-161 and 206-211)

A numpy array value is modelled by its dtype and contents: boolean, float,
integer, or object dtype (the auxiliary metadata maps stored per transition).
Floats are modelled as exact rationals. `to_tensor` (`torch.from_numpy(...)
.float()`) is modelled on the numeric dtypes; the behaviour of torch on object
dtype is external to this repository and never reached in the dict path,
where object entries are filtered out first. -/

/-- Numpy dtypes relevant to batch conversion. -/
inductive Dtype where
  | boolD
  | floatD
  | intD
  | objD
  deriving DecidableEq

/-- A numpy array entry of a batch: contents tagged with dtype. -/
inductive NpValue where
  | boolArr (bs : List Bool)
  | floatArr (xs : List ℚ)
  | intArr (ns : List ℤ)
  | objArr (tag : String)
  deriving DecidableEq

/-- The dtype `v.dtype` of a numpy value. -/
def NpValue.dtype : NpValue → Dtype
  | boolArr _ => Dtype.boolD
  | floatArr _ => Dtype.floatD
  | intArr _ => Dtype.intD
  | objArr _ => Dtype.objD

/-- Conversion `to_tensor` on a numpy value: `torch.from_numpy(np_array).float()`,
yielding a float tensor (a list of rationals). Booleans become 0/1 floats
and integers are cast; object dtype is outside the modelled torch domain. -/
def to_tensor : NpValue → List ℚ
  | NpValue.boolArr bs => bs.map fun x => if x then 1 else 0
  | NpValue.floatArr xs => xs
  | NpValue.intArr ns => ns.map fun n : ℤ => (n : ℚ)
  | NpValue.objArr _ => []

/-- The generator `_filter_batch`: yields every entry of the batch in order, converting a
boolean-dtype entry with `astype(int)` (booleans become integers 0/1) and
passing every other entry through unchanged. -/
def _filter_batch (batch : List (String × NpValue)) : List (String × NpValue) :=
  batch.map fun kv =>
    match kv.2 with
    | NpValue.boolArr bs => (kv.1, NpValue.intArr (bs.map fun x => if x then 1 else 0))
    | v => (kv.1, v)

/-- The argument of `to_tensor_batch`: either a dict-shaped batch or a bare
array. -/
inductive PyObj where
  | dict (entries : List (String × NpValue))
  | arr (v : NpValue)

/-- The function `to_tensor_batch`: on a dict, build a dict mapping each key of
`_filter_batch(batch)` whose value is not of object dtype to its tensor
conversion; on a non-dict, compute `to_tensor(batch, device)` but fall off
the end of the function without returning it (Python yields `None`). -/
def to_tensor_batch (batch : PyObj) : Option (List (String × List ℚ)) :=
  match batch with
  | PyObj.dict b =>
      some (((_filter_batch b).filter
        (fun kv => decide (kv.2.dtype ≠ Dtype.objD))).map
        (fun kv => (kv.1, to_tensor kv.2)))
  | PyObj.arr v =>
      let _ := to_tensor v
      none

/-- C4: on a dict batch the result exists, its keys are exactly the non-object
keys of the input in order, boolean entries are converted to 0/1 before
tensor conversion, and float and integer entries convert to the corresponding
float tensors. -/
theorem to_tensor_batch_dict_spec (b : List (String × NpValue)) :
    ∃ r, to_tensor_batch (PyObj.dict b) = some r
      ∧ r.map Prod.fst
          = (b.filter fun kv => decide (kv.2.dtype ≠ Dtype.objD)).map Prod.fst
      ∧ (∀ k bs, (k, NpValue.boolArr bs) ∈ b →
          (k, bs.map fun x => if x then (1:ℚ) else 0) ∈ r)
      ∧ (∀ k xs, (k, NpValue.floatArr xs) ∈ b → (k, xs) ∈ r)
      ∧ (∀ k ns, (k, NpValue.intArr ns) ∈ b → (k, ns.map fun n : ℤ => (n:ℚ)) ∈ r) := by
  refine ⟨_, rfl, ?_, ?_, ?_, ?_⟩
  · induction b with
    | nil => rfl
    | cons kv rest ih =>
        obtain ⟨k, v⟩ := kv
        cases v <;>
          simp_all [_filter_batch, List.filter_cons, NpValue.dtype]
  · intro k bs hmem
    have h4 : ((bs.map fun x => if x then (1:ℤ) else 0).map fun n : ℤ => (n:ℚ))
        = bs.map fun x => if x then (1:ℚ) else 0 := by
      rw [List.map_map]
      refine List.map_congr_left fun x _ => ?_
      cases x <;> simp
    have h1 : (k, NpValue.intArr (bs.map fun x => if x then 1 else 0))
        ∈ _filter_batch b := by
      unfold _filter_batch
      exact List.mem_map.2 ⟨(k, NpValue.boolArr bs), hmem, rfl⟩
    have h2 : (k, NpValue.intArr (bs.map fun x => if x then 1 else 0))
        ∈ (_filter_batch b).filter (fun kv => decide (kv.2.dtype ≠ Dtype.objD)) :=
      List.mem_filter.2 ⟨h1, rfl⟩
    have h5 : to_tensor (NpValue.intArr (bs.map fun x => if x then 1 else 0))
        = bs.map fun x => if x then (1:ℚ) else 0 := by
      simp only [to_tensor]
      exact h4
    exact List.mem_map.2 ⟨_, h2, congrArg (Prod.mk k) h5⟩
  · intro k xs hmem
    have h1 : (k, NpValue.floatArr xs) ∈ _filter_batch b := by
      unfold _filter_batch
      exact List.mem_map.2 ⟨(k, NpValue.floatArr xs), hmem, rfl⟩
    have h2 : (k, NpValue.floatArr xs)
        ∈ (_filter_batch b).filter (fun kv => decide (kv.2.dtype ≠ Dtype.objD)) :=
      List.mem_filter.2 ⟨h1, rfl⟩
    exact List.mem_map.2 ⟨_, h2, rfl⟩
  · intro k ns hmem
    have h1 : (k, NpValue.intArr ns) ∈ _filter_batch b := by
      unfold _filter_batch
      exact List.mem_map.2 ⟨(k, NpValue.intArr ns), hmem, rfl⟩
    have h2 : (k, NpValue.intArr ns)
        ∈ (_filter_batch b).filter (fun kv => decide (kv.2.dtype ≠ Dtype.objD)) :=
      List.mem_filter.2 ⟨h1, rfl⟩
    exact List.mem_map.2 ⟨_, h2, rfl⟩

/-- Witness for C4: a batch with a boolean terminals entry, an object-dtype
auxiliary entry and a float rewards entry: the terminals become the 0/1
tensor, the object entry is dropped, and the keys keep their order. -/
theorem to_tensor_batch_dict_spec_witness :
    ∃ r, to_tensor_batch (PyObj.dict
        [("terminals", NpValue.boolArr [true, false]),
         ("agent_infos", NpValue.objArr "info"),
         ("rewards", NpValue.floatArr [1/2])]) = some r
      ∧ ("terminals", [(1:ℚ), 0]) ∈ r
      ∧ ("rewards", [(1:ℚ)/2]) ∈ r
      ∧ r.map Prod.fst = ["terminals", "rewards"] := by
  obtain ⟨r, h1, h2, h3, h4, h5⟩ := to_tensor_batch_dict_spec
    [("terminals", NpValue.boolArr [true, false]),
     ("agent_infos", NpValue.objArr "info"),
     ("rewards", NpValue.floatArr [1/2])]
  refine ⟨r, h1, ?_, ?_, ?_⟩
  · have := h3 "terminals" [true, false] (by simp)
    simpa using this
  · exact h4 "rewards" [1/2] (by simp)
  · rw [h2]; rfl

/-- C8: a non-dict argument makes `to_tensor_batch` compute the tensor
conversion but return `None`: the else-branch has no return statement. -/
theorem to_tensor_batch_non_dict (v : NpValue) :
    to_tensor_batch (PyObj.arr v) = none := rfl

/-! ## create_stats_ordered_dict (utils.py lines 214-259)

The `data` argument is a scalar number, a numpy array, a list of scalars, a
list of iterables (concatenated into one array by `np.concatenate`), or a
tuple of such data. Values are modelled as real numbers (`np.std` takes a
square root). The returned `OrderedDict` is an association list in insertion
order; `OrderedDict.update` overwrites an existing key in place or appends a
new one at the end. -/

/-- The shapes of `data` accepted by `create_stats_ordered_dict`. -/
inductive StatsData where
  | num (x : ℝ)
  | arr (xs : List ℝ)
  | listScalars (xs : List ℝ)
  | listArrays (xss : List (List ℝ))
  | tup (ds : List StatsData)

/-- The mean `np.mean`. -/
noncomputable def np_mean (xs : List ℝ) : ℝ := xs.sum / xs.length

/-- The standard deviation `np.std` (population form, numpy default ddof = 0). -/
noncomputable def np_std (xs : List ℝ) : ℝ :=
  Real.sqrt ((xs.map fun x => (x - np_mean xs) ^ 2).sum / xs.length)

/-- The maximum `np.max` of a non-empty array. -/
noncomputable def np_max (xs : List ℝ) : ℝ := xs.foldl max (xs.headD 0)

/-- The minimum `np.min` of a non-empty array. -/
noncomputable def np_min (xs : List ℝ) : ℝ := xs.foldl min (xs.headD 0)

/-- One `OrderedDict.update` step: overwrite an existing key in place,
otherwise append the pair at the end. -/
def od_update (d : List (String × ℝ)) (kv : String × ℝ) : List (String × ℝ) :=
  if d.any fun p => p.1 == kv.1 then
    d.map fun p => if p.1 == kv.1 then (p.1, kv.2) else p
  else d ++ [kv]

/-- Tail of `create_stats_ordered_dict` after the tuple and list shapes are
resolved: `data` is now an array (`isArray = true`, produced directly or by
`np.concatenate`) or a plain list of scalars. A size-one array with
`always_show_all_stats` unset collapses to `{name: float(data)}`; otherwise
the Mean and Std entries are built and, unless `exclude_max_min`, the Max
and Min entries are appended. -/
noncomputable def stats_tail (name : String) (xs : List ℝ) (isArray : Bool)
    (always_show_all_stats exclude_max_min : Bool) : List (String × ℝ) :=
  if isArray = true ∧ xs.length = 1 ∧ always_show_all_stats = false then
    [(name, xs.headD 0)]
  else
    [(name ++ " Mean", np_mean xs), (name ++ " Std", np_std xs)]
      ++ (if exclude_max_min = false then
            [(name ++ " Max", np_max xs), (name ++ " Min", np_min xs)]
          else [])

mutual

/-- The function `create_stats_ordered_dict(name, data, stat_prefix,
always_show_all_stats, exclude_max_min)`: prepend the prefix to the name if
given; a scalar yields `{name: data}`; empty data yields an empty dict; a
tuple recurses on each component with suffix `_i` and default flags, feeding
an `OrderedDict.update`; a list of iterables is concatenated; otherwise the
statistics entries are built by `stats_tail`. -/
noncomputable def create_stats_ordered_dict (name0 : String) (data : StatsData)
    (statPre : Option String) (always_show_all_stats exclude_max_min : Bool) :
    List (String × ℝ) :=
  let name := match statPre with
    | some p => p ++ name0
    | none => name0
  match data with
  | StatsData.num x => [(name, x)]
  | StatsData.arr xs =>
      if xs.length = 0 then []
      else stats_tail name xs true always_show_all_stats exclude_max_min
  | StatsData.listScalars xs =>
      if xs.length = 0 then []
      else stats_tail name xs false always_show_all_stats exclude_max_min
  | StatsData.listArrays xss =>
      if xss.length = 0 then []
      else stats_tail name xss.flatten true always_show_all_stats exclude_max_min
  | StatsData.tup ds =>
      if ds.length = 0 then [] else csod_tuple name ds 0 []

/-- The tuple loop of `create_stats_ordered_dict`: for each component `d`
with index `n`, compute the sub-dict for name `name_n` with default flags and
merge it into the accumulated ordered dict with `OrderedDict.update`. -/
noncomputable def csod_tuple (name : String) (ds : List StatsData) (n : ℕ)
    (acc : List (String × ℝ)) : List (String × ℝ) :=
  match ds with
  | [] => acc
  | d :: rest =>
      csod_tuple name rest (n + 1)
        ((create_stats_ordered_dict (name ++ "_" ++ toString n) d none true false).foldl
          od_update acc)

end

/-- C5: on a non-empty array or list of scalars with default flags the result
is exactly the four entries Mean, Std, Max, Min in that order, holding the
mean, standard deviation, maximum and minimum of the data; with
`exclude_max_min` set only the Mean and Std entries are returned. -/
theorem create_stats_four_stats (name : String) (xs : List ℝ) (h : xs ≠ []) :
    (create_stats_ordered_dict name (StatsData.arr xs) none true false
        = [(name ++ " Mean", np_mean xs), (name ++ " Std", np_std xs),
           (name ++ " Max", np_max xs), (name ++ " Min", np_min xs)]
      ∧ create_stats_ordered_dict name (StatsData.listScalars xs) none true false
        = [(name ++ " Mean", np_mean xs), (name ++ " Std", np_std xs),
           (name ++ " Max", np_max xs), (name ++ " Min", np_min xs)])
    ∧ (create_stats_ordered_dict name (StatsData.arr xs) none true true
        = [(name ++ " Mean", np_mean xs), (name ++ " Std", np_std xs)]
      ∧ create_stats_ordered_dict name (StatsData.listScalars xs) none true true
        = [(name ++ " Mean", np_mean xs), (name ++ " Std", np_std xs)]) := by
  have hlen : xs.length ≠ 0 := fun hc => h (List.length_eq_zero.1 hc)
  refine ⟨⟨?_, ?_⟩, ?_, ?_⟩ <;>
    simp [create_stats_ordered_dict, stats_tail, hlen]

/-- Witness for C5: a concrete two-element array; the four entries appear in
order and the statistics evaluate to 2, 0, 2, 2. -/
theorem create_stats_four_stats_witness :
    create_stats_ordered_dict "Returns" (StatsData.arr [2, 2]) none true false
      = [("Returns Mean", np_mean [2, 2]), ("Returns Std", np_std [2, 2]),
         ("Returns Max", np_max [2, 2]), ("Returns Min", np_min [2, 2])]
    ∧ np_mean [2, 2] = 2 ∧ np_std [2, 2] = 0
    ∧ np_max [2, 2] = 2 ∧ np_min [2, 2] = 2 := by
  refine ⟨(create_stats_four_stats "Returns" [2, 2] (by simp)).1.1, ?_, ?_, ?_, ?_⟩
  · norm_num [np_mean]
  · norm_num [np_std, np_mean]
  · norm_num [np_max]
  · norm_num [np_min]

/-- C9: an empty list, array, list of arrays or tuple yields an empty ordered
dict, and a scalar `Number` yields the single entry `{name: data}` with no
statistics computed. -/
theorem create_stats_degenerate (name : String) (x : ℝ) :
    create_stats_ordered_dict name (StatsData.num x) none true false = [(name, x)]
    ∧ create_stats_ordered_dict name (StatsData.arr []) none true false = []
    ∧ create_stats_ordered_dict name (StatsData.listScalars []) none true false = []
    ∧ create_stats_ordered_dict name (StatsData.listArrays []) none true false = []
    ∧ create_stats_ordered_dict name (StatsData.tup []) none true false = [] := by
  refine ⟨?_, ?_, ?_, ?_, ?_⟩ <;> simp [create_stats_ordered_dict]

/-! ## dict_to_safe_json and safe_json (utils.py lines 369-396)

Python values are modelled by `PyVal`; a dict key is a string or some other
hashable object. `str(item)` is modelled by `py_str`, a recursive textual
rendering. -/

/-- A Python dict key: a string, or any other hashable object carrying its
textual form. -/
inductive PyKey where
  | str (s : String)
  | other (tag : String)

/-- A Python value as seen by `safe_json`: JSON-like primitives, containers,
strings, and arbitrary other objects carrying their textual form. -/
inductive PyVal where
  | none
  | bool (b : Bool)
  | int (n : ℤ)
  | float (q : ℚ)
  | str (s : String)
  | tuple (xs : List PyVal)
  | list (xs : List PyVal)
  | dict (kvs : List (PyKey × PyVal))
  | obj (tag : String)

/-- Textual form of a dict key. -/
def PyKey.render : PyKey → String
  | PyKey.str s => s
  | PyKey.other tag => tag

mutual

/-- Rendering `str(item)`: the Python textual form, modelled structurally. A string
renders as itself, `None`/booleans/numbers as their literals, containers by
joining their rendered elements. -/
def py_str : PyVal → String
  | PyVal.none => "None"
  | PyVal.bool b => if b then "True" else "False"
  | PyVal.int n => toString n
  | PyVal.float q => toString q
  | PyVal.str s => s
  | PyVal.tuple xs => "(" ++ py_str_list xs ++ ")"
  | PyVal.list xs => "[" ++ py_str_list xs ++ "]"
  | PyVal.dict kvs => "\x7b" ++ py_str_dict kvs ++ "\x7d"
  | PyVal.obj tag => tag

/-- Comma-joined rendering of a list of values. -/
def py_str_list : List PyVal → String
  | [] => ""
  | [x] => py_str x
  | x :: xs => py_str x ++ ", " ++ py_str_list xs

/-- Comma-joined rendering of dict entries. -/
def py_str_dict : List (PyKey × PyVal) → String
  | [] => ""
  | [(k, v)] => k.render ++ ": " ++ py_str v
  | (k, v) :: kvs => k.render ++ ": " ++ py_str v ++ ", " ++ py_str_dict kvs

end

mutual

/-- The predicate `safe_json(data)`: `None`, booleans and numbers are safe; tuples and
lists are safe when all elements are; a dict is safe when every key is a
string and every value is safe; everything else (strings included) is not. -/
def safe_json : PyVal → Bool
  | PyVal.none => true
  | PyVal.bool _ => true
  | PyVal.int _ => true
  | PyVal.float _ => true
  | PyVal.tuple xs => safe_json_list xs
  | PyVal.list xs => safe_json_list xs
  | PyVal.dict kvs => safe_json_dict kvs
  | _ => false

/-- Conjunction `all(safe_json(x) for x in data)`. -/
def safe_json_list : List PyVal → Bool
  | [] => true
  | x :: xs => safe_json x && safe_json_list xs

/-- Conjunction `all(isinstance(k, str) and safe_json(v) for k, v in data.items())`. -/
def safe_json_dict : List (PyKey × PyVal) → Bool
  | [] => true
  | (k, v) :: kvs =>
      (match k with | PyKey.str _ => true | _ => false)
        && safe_json v && safe_json_dict kvs

end

mutual

/-- The function `dict_to_safe_json(d)`: rebuild the dict entry by entry, converting each
value with the loop body `dtsj_item`. -/
def dict_to_safe_json : List (PyKey × PyVal) → List (PyKey × PyVal)
  | [] => []
  | kv :: rest => dtsj_item kv :: dict_to_safe_json rest

/-- The loop body of `dict_to_safe_json`: keep a value passing `safe_json`,
convert a failing dict value recursively, and replace any other failing
value by its string form. -/
def dtsj_item : PyKey × PyVal → PyKey × PyVal
  | (k, v) =>
      if safe_json v then (k, v)
      else
        match v with
        | PyVal.dict sub => (k, PyVal.dict (dict_to_safe_json sub))
        | _ => (k, PyVal.str (py_str v))

end

theorem dtsj_item_fst (k : PyKey) (v : PyVal) : (dtsj_item (k, v)).1 = k := by
  cases v <;> simp only [dtsj_item] <;> split <;> rfl

theorem dtsj_item_safe (k : PyKey) (v : PyVal) (h : safe_json v = true) :
    dtsj_item (k, v) = (k, v) := by
  cases v <;> simp [dtsj_item, h]

theorem dtsj_item_dict (k : PyKey) (sub : List (PyKey × PyVal))
    (h : safe_json (PyVal.dict sub) = false) :
    dtsj_item (k, PyVal.dict sub) = (k, PyVal.dict (dict_to_safe_json sub)) := by
  simp [dtsj_item, h]

theorem dtsj_item_other (k : PyKey) (v : PyVal) (h : safe_json v = false)
    (h2 : ∀ sub, v ≠ PyVal.dict sub) :
    dtsj_item (k, v) = (k, PyVal.str (py_str v)) := by
  cases v <;> first
    | exact absurd rfl (h2 _)
    | simp [dtsj_item, h]

/-- C6 counterexample: a dict value whose only flaw is a non-string key is
"converted recursively", but the recursion keeps the offending key, so the
returned value still fails `safe_json` — the returned dict is not entirely
JSON-serializable. -/
theorem dict_to_safe_json_value_not_safe :
    dict_to_safe_json [(PyKey.str "a", PyVal.dict [(PyKey.other "k", PyVal.int 3)])]
      = [(PyKey.str "a", PyVal.dict [(PyKey.other "k", PyVal.int 3)])]
    ∧ safe_json (PyVal.dict [(PyKey.other "k", PyVal.int 3)]) = false := by
  constructor
  · rw [dict_to_safe_json, dict_to_safe_json, dtsj_item]
    simp [safe_json, safe_json_dict, dict_to_safe_json, dtsj_item]
  · simp [safe_json, safe_json_dict]

/-- C6 (amended): `dict_to_safe_json` preserves the keys and their order, and
entry-wise: a value passing `safe_json` is kept as-is, a dict value failing
`safe_json` is converted recursively (its own keys kept, so the result can
still fail `safe_json`), and any other failing value is replaced by its
string form. -/
theorem dict_to_safe_json_spec (d : List (PyKey × PyVal)) :
    ((dict_to_safe_json d).map Prod.fst = d.map Prod.fst)
    ∧ ∀ (i : ℕ) (k : PyKey) (v : PyVal), d[i]? = some (k, v) →
        (safe_json v = true → (dict_to_safe_json d)[i]? = some (k, v))
        ∧ (∀ sub, v = PyVal.dict sub → safe_json v = false →
            (dict_to_safe_json d)[i]? = some (k, PyVal.dict (dict_to_safe_json sub)))
        ∧ (safe_json v = false → (∀ sub, v ≠ PyVal.dict sub) →
            (dict_to_safe_json d)[i]? = some (k, PyVal.str (py_str v))) := by
  induction d with
  | nil =>
      refine ⟨?_, fun i k v h => ?_⟩
      · rw [dict_to_safe_json]
      · simp at h
  | cons kv rest ih =>
      obtain ⟨k0, v0⟩ := kv
      have hcons : dict_to_safe_json ((k0, v0) :: rest)
          = dtsj_item (k0, v0) :: dict_to_safe_json rest := by
        rw [dict_to_safe_json]
      refine ⟨?_, ?_⟩
      · rw [hcons, List.map_cons, List.map_cons, dtsj_item_fst, ih.1]
      · intro i k v h
        cases i with
        | zero =>
            rw [List.getElem?_cons_zero, Option.some_inj] at h
            injection h with hk hv
            subst hk
            subst hv
            refine ⟨?_, ?_, ?_⟩
            · intro hs
              rw [hcons, List.getElem?_cons_zero, dtsj_item_safe _ _ hs]
            · intro sub hsub hs
              subst hsub
              rw [hcons, List.getElem?_cons_zero, dtsj_item_dict _ _ hs]
            · intro hs hnd
              rw [hcons, List.getElem?_cons_zero, dtsj_item_other _ _ hs hnd]
        | succ j =>
            rw [List.getElem?_cons_succ] at h
            have h3 := ih.2 j k v h
            rw [hcons]
            simpa [List.getElem?_cons_succ] using h3

/-- Witness for C6 (amended): a config dict holding a non-serializable
object; the key survives and the value becomes its string form. -/
theorem dict_to_safe_json_spec_witness :
    (dict_to_safe_json [(PyKey.str "cfg", PyVal.obj "Env")]).map Prod.fst
        = [PyKey.str "cfg"]
    ∧ (dict_to_safe_json [(PyKey.str "cfg", PyVal.obj "Env")])[0]?
        = some (PyKey.str "cfg", PyVal.str "Env") := by
  obtain ⟨h1, h2⟩ := dict_to_safe_json_spec [(PyKey.str "cfg", PyVal.obj "Env")]
  refine ⟨h1, ?_⟩
  have h3 := (h2 0 (PyKey.str "cfg") (PyVal.obj "Env") (by simp)).2.2
  have h4 := h3 (by simp [safe_json]) (fun sub => by simp)
  simpa [py_str] using h4

/-! ## cat_dict (utils.py lines 183-188)

`cat_dict(orig, new)` mutates `orig` in place: for each key of `new`, in
the iteration order of `new`, it appends `new[key]` to the list stored at
`orig[key]` when the key is present, and otherwise inserts the key at the
end of `orig` (Python dict insertion order) mapping it to `[new[key]]`.
Dicts are modelled as association lists in insertion order with unique
keys. -/

/-- One iteration of the `cat_dict` loop for the entry `kv` of `new`:
`orig[key].append(new[key])` when the key exists, else
`orig[key] = [new[key]]`. -/
def cat_dict_step {α : Type} (acc : List (String × List α)) (kv : String × α) :
    List (String × List α) :=
  if acc.any fun p => p.1 == kv.1 then
    acc.map fun p => if p.1 == kv.1 then (p.1, p.2 ++ [kv.2]) else p
  else acc ++ [(kv.1, [kv.2])]

/-- The function `cat_dict(orig, new)`: fold of the loop body over the entries of `new`,
returning the updated `orig`. -/
def cat_dict {α : Type} (orig : List (String × List α))
    (new : List (String × α)) : List (String × List α) :=
  new.foldl cat_dict_step orig

theorem lookup_cons_of_bne {β : Type} (k k1 : String) (v : β)
    (t : List (String × β)) (h : (k == k1) = false) :
    List.lookup k ((k1, v) :: t) = List.lookup k t := by
  simp [List.lookup, h]

theorem mem_of_lookup_eq_some {β : Type} (k : String) (y : β)
    (t : List (String × β)) (h : List.lookup k t = some y) : (k, y) ∈ t := by
  induction t with
  | nil => simp [List.lookup] at h
  | cons p t ih =>
      obtain ⟨k1, v1⟩ := p
      cases hk : (k == k1)
      · rw [lookup_cons_of_bne k k1 v1 t hk] at h
        exact List.mem_cons_of_mem _ (ih h)
      · have heq : k = k1 := eq_of_beq hk
        subst heq
        rw [List.lookup_cons_self, Option.some_inj] at h
        subst h
        exact List.mem_cons_self _ _

theorem lookup_map_update {α : Type} (t : List (String × List α))
    (k0 k : String) (x : α) :
    List.lookup k (t.map fun p => if p.1 == k0 then (p.1, p.2 ++ [x]) else p)
      = if k == k0 then (List.lookup k t).map (fun l => l ++ [x])
        else List.lookup k t := by
  induction t with
  | nil => cases hk : (k == k0) <;> simp [List.lookup, hk]
  | cons p t ih =>
      obtain ⟨k1, v1⟩ := p
      simp only [List.map_cons]
      by_cases h1 : k1 = k0
      · subst h1
        rw [if_pos (beq_self_eq_true k1)]
        by_cases h2 : k = k1
        · subst h2
          rw [List.lookup_cons_self, if_pos (beq_self_eq_true k),
            List.lookup_cons_self]
          rfl
        · have hb2 : (k == k1) = false := beq_false_of_ne h2
          rw [lookup_cons_of_bne k k1 (v1 ++ [x]) _ hb2,
            lookup_cons_of_bne k k1 v1 _ hb2, ih]
      · have hb1 : (k1 == k0) = false := beq_false_of_ne h1
        rw [if_neg (by simp [hb1])]
        by_cases h2 : k = k1
        · subst h2
          have hbk0 : (k == k0) = false := beq_false_of_ne h1
          rw [List.lookup_cons_self, if_neg (by simp [hbk0]),
            List.lookup_cons_self]
        · have hb2 : (k == k1) = false := beq_false_of_ne h2
          rw [lookup_cons_of_bne k k1 v1 _ hb2,
            lookup_cons_of_bne k k1 v1 _ hb2, ih]

theorem lookup_append_entries {α : Type} (t₁ t₂ : List (String × List α))
    (k : String) :
    List.lookup k (t₁ ++ t₂)
      = ((List.lookup k t₁).or (List.lookup k t₂)) := by
  induction t₁ with
  | nil => simp [List.lookup]
  | cons p t ih =>
      obtain ⟨k1, v1⟩ := p
      cases hk : (k == k1) <;> simp [List.lookup, hk, ih]

theorem lookup_none_of_any_false {α : Type} (acc : List (String × List α))
    (k0 : String) (h : (acc.any fun p => p.1 == k0) = false) :
    List.lookup k0 acc = none := by
  induction acc with
  | nil => rfl
  | cons p t ih =>
      obtain ⟨k1, v1⟩ := p
      simp only [List.any_cons, Bool.or_eq_false_iff] at h
      have hk : (k0 == k1) = false := by
        cases hbeq : (k0 == k1)
        · rfl
        · exfalso
          have h5 := h.1
          rw [eq_of_beq hbeq] at h5
          simp at h5
      rw [lookup_cons_of_bne k0 k1 v1 t hk]
      exact ih h.2

theorem lookup_some_of_any_true {α : Type} (acc : List (String × List α))
    (k0 : String) (h : (acc.any fun p => p.1 == k0) = true) :
    ∃ l, List.lookup k0 acc = some l := by
  induction acc with
  | nil => simp at h
  | cons p t ih =>
      obtain ⟨k1, v1⟩ := p
      simp only [List.any_cons, Bool.or_eq_true] at h
      rcases h with h | h
      · have : k1 = k0 := eq_of_beq h
        subst this
        exact ⟨v1, by simp [List.lookup]⟩
      · cases hk : (k0 == k1)
        · obtain ⟨l, hl⟩ := ih h
          exact ⟨l, by simp [List.lookup, hk, hl]⟩
        · exact ⟨v1, by simp [List.lookup, hk]⟩

theorem lookup_cat_dict_step_self {α : Type} (acc : List (String × List α))
    (k0 : String) (x : α) :
    List.lookup k0 (cat_dict_step acc (k0, x))
      = some ((List.lookup k0 acc).getD [] ++ [x]) := by
  unfold cat_dict_step
  cases hany : (acc.any fun p => p.1 == k0)
  · simp only [Bool.false_eq_true, if_false]
    rw [lookup_append_entries, lookup_none_of_any_false acc k0 hany]
    simp [List.lookup]
  · simp only [if_true]
    rw [lookup_map_update]
    obtain ⟨l, hl⟩ := lookup_some_of_any_true acc k0 hany
    simp [hl]

theorem lookup_cat_dict_step_other {α : Type} (acc : List (String × List α))
    (k0 k : String) (x : α) (hk : (k == k0) = false) :
    List.lookup k (cat_dict_step acc (k0, x)) = List.lookup k acc := by
  unfold cat_dict_step
  cases hany : (acc.any fun p => p.1 == k0)
  · simp only [Bool.false_eq_true, if_false]
    rw [lookup_append_entries]
    simp [List.lookup, hk]
  · simp only [if_true]
    rw [lookup_map_update, if_neg (by simp [hk])]

/-- C10: after `cat_dict(orig, new)` (with dict keys unique, as in Python):
a key of `new` present in `orig` maps to its previous list with the new
value appended, a key of `new` absent from `orig` maps to the one-element
list of the new value, and a key not in `new` keeps its `orig` binding. -/
theorem cat_dict_spec {α : Type} (orig : List (String × List α))
    (new : List (String × α)) (hn : (new.map Prod.fst).Nodup) :
    ∀ k : String,
      (∀ x, List.lookup k new = some x →
        List.lookup k (cat_dict orig new)
          = some ((List.lookup k orig).getD [] ++ [x]))
      ∧ (List.lookup k new = none →
        List.lookup k (cat_dict orig new) = List.lookup k orig) := by
  induction new generalizing orig with
  | nil =>
      intro k
      exact ⟨fun x hx => by simp [List.lookup] at hx, fun _ => rfl⟩
  | cons kv rest ih =>
      obtain ⟨k0, x0⟩ := kv
      have hrest : (rest.map Prod.fst).Nodup := (List.nodup_cons.1 hn).2
      have hk0rest : k0 ∉ rest.map Prod.fst := (List.nodup_cons.1 hn).1
      intro k
      have hfold : cat_dict orig ((k0, x0) :: rest)
          = cat_dict (cat_dict_step orig (k0, x0)) rest := rfl
      by_cases hkk : k = k0
      · subst hkk
        have hnone : List.lookup k rest = none := by
          cases hl : List.lookup k rest with
          | none => rfl
          | some y =>
              exact absurd
                (List.mem_map_of_mem Prod.fst (mem_of_lookup_eq_some k y rest hl))
                hk0rest
        constructor
        · intro x hx
          simp only [List.lookup_cons_self, Option.some_inj] at hx
          subst hx
          rw [hfold, (ih (cat_dict_step orig (k, x0)) hrest k).2 hnone,
            lookup_cat_dict_step_self]
        · intro hx
          simp [List.lookup] at hx
      · have hbk : (k == k0) = false := beq_false_of_ne hkk
        have hcons : List.lookup k ((k0, x0) :: rest) = List.lookup k rest := by
          simp [List.lookup, hbk]
        constructor
        · intro x hx
          rw [hcons] at hx
          rw [hfold, (ih (cat_dict_step orig (k0, x0)) hrest k).1 x hx,
            lookup_cat_dict_step_other orig k0 k x0 hbk]
        · intro hx
          rw [hcons] at hx
          rw [hfold, (ih (cat_dict_step orig (k0, x0)) hrest k).2 hx,
            lookup_cat_dict_step_other orig k0 k x0 hbk]

/-- Witness for C10: `orig = {"a": [1]}`, `new = {"a": 2, "b": 3}`; after the
call, "a" maps to [1, 2] and "b" to [3]. -/
theorem cat_dict_spec_witness :
    List.lookup "a" (cat_dict [("a", [(1:ℤ)])] [("a", 2), ("b", 3)])
        = some [1, 2]
    ∧ List.lookup "b" (cat_dict [("a", [(1:ℤ)])] [("a", 2), ("b", 3)])
        = some [3] := by
  have h := cat_dict_spec [("a", [(1:ℤ)])] [("a", 2), ("b", 3)] (by simp)
  constructor
  · have h1 := (h "a").1 2 (by simp [List.lookup])
    simpa [List.lookup] using h1
  · have h2 := (h "b").1 3 (by simp [List.lookup])
    simpa [List.lookup] using h2

/-! ## Transition Store (ReplayBuffer)

Modelled from the spec: the `ReplayBuffer` class (imported from
`drl_algos.data` by the SAC example) is not among the provided source
files; only its construction and use appear in `algos/SAC/example.py`. Per
the spec it is a fixed-size indexed array of transition slots plus a write
cursor and a count of valid entries; `insert(path)` appends every
transition of the path in order, the write index wraps at capacity and
overwrites the oldest entry, and the size is capped at the capacity. -/

/-- Modelled from the spec: a Transition Store of fixed capacity; `storage`
is the indexed slot array (a slot is `none` until first written), `top` the
write cursor, `size` the count of valid entries. -/
structure ReplayBuffer (α : Type) where
  capacity : ℕ
  storage : ℕ → Option α
  top : ℕ
  size : ℕ

/-- Modelled from the spec: an empty store of capacity `c`. -/
def ReplayBuffer.empty (α : Type) (c : ℕ) : ReplayBuffer α :=
  ⟨c, fun _ => Option.none, 0, 0⟩

/-- Modelled from the spec: store one transition at the write cursor,
advance the cursor with wraparound, cap the size at capacity. -/
def ReplayBuffer.add {α : Type} (buf : ReplayBuffer α) (t : α) : ReplayBuffer α :=
  { buf with
      storage := fun i => if i = buf.top then some t else buf.storage i
      top := (buf.top + 1) % buf.capacity
      size := min (buf.size + 1) buf.capacity }

/-- Modelled from the spec: `insert(path)` appends every transition of the
path, in order. -/
def ReplayBuffer.insert {α : Type} (buf : ReplayBuffer α) (path : List α) :
    ReplayBuffer α :=
  path.foldl ReplayBuffer.add buf

/-- The sequence of path insertions of a whole run. -/
def ReplayBuffer.insert_paths {α : Type} (buf : ReplayBuffer α)
    (paths : List (List α)) : ReplayBuffer α :=
  paths.foldl ReplayBuffer.insert buf

theorem insert_paths_eq_foldl_add {α : Type} (buf : ReplayBuffer α)
    (paths : List (List α)) :
    ReplayBuffer.insert_paths buf paths
      = paths.flatten.foldl ReplayBuffer.add buf := by
  rw [ReplayBuffer.insert_paths, List.foldl_flatten]
  rfl

/-- Invariant of the fold of single-transition writes over the whole
insertion sequence: the capacity is constant, the size is the capped count,
the cursor is the count modulo the capacity, and each of the last
`capacity` inserted items sits in its ring slot. -/
theorem foldl_add_invariant {α : Type} (C : ℕ) (hC : 0 < C) (all : List α) :
    (all.foldl ReplayBuffer.add (ReplayBuffer.empty α C)).capacity = C
    ∧ (all.foldl ReplayBuffer.add (ReplayBuffer.empty α C)).size
        = min C all.length
    ∧ (all.foldl ReplayBuffer.add (ReplayBuffer.empty α C)).top = all.length % C
    ∧ ∀ j, j < all.length → all.length - C ≤ j →
        (all.foldl ReplayBuffer.add (ReplayBuffer.empty α C)).storage (j % C)
          = all[j]? := by
  induction all using List.reverseRecOn with
  | nil =>
      refine ⟨rfl, by simp [ReplayBuffer.empty], by simp [ReplayBuffer.empty], ?_⟩
      intro j hj
      simp at hj
  | append_singleton xs x ih =>
      obtain ⟨hcap, hsize, htop, hstore⟩ := ih
      rw [List.foldl_append, List.foldl_cons, List.foldl_nil]
      set b := xs.foldl ReplayBuffer.add (ReplayBuffer.empty α C) with hb
      refine ⟨hcap, ?_, ?_, ?_⟩
      · show min (b.size + 1) b.capacity = min C (xs ++ [x]).length
        rw [hsize, hcap, List.length_append, List.length_singleton]
        omega
      · show (b.top + 1) % b.capacity = (xs ++ [x]).length % C
        rw [htop, hcap, List.length_append, List.length_singleton,
          Nat.mod_add_mod]
      · intro j hj hwin
        rw [List.length_append, List.length_singleton] at hj hwin
        show (if j % C = b.top then some x else b.storage (j % C))
          = (xs ++ [x])[j]?
        rw [htop]
        by_cases hjn : j = xs.length
        · subst hjn
          rw [if_pos rfl, List.getElem?_concat_length]
        · have hjlt : j < xs.length := by omega
          have hne : ¬ j % C = xs.length % C := by
            intro hmod
            have hdvd : (xs.length - j) % C = 0 :=
              Nat.sub_mod_eq_zero_of_mod_eq (hmod ▸ rfl)
            have hlt : xs.length - j < C := by omega
            have hpos : 0 < xs.length - j := by omega
            rw [Nat.mod_eq_of_lt hlt] at hdvd
            omega
          rw [if_neg hne, List.getElem?_append, if_pos hjlt]
          exact hstore j hjlt (by omega)

/-- C7: for every sequence of path insertions into a store of capacity
`C > 0`, the size equals `min C (total transitions inserted)`, and the
resident entries are exactly the last `min C n` inserted transitions, each
in its ring slot (insertion index modulo `C`) — so once the store is full,
each further insertion overwrites exactly the oldest still-resident entry,
in insertion order. -/
theorem replay_buffer_ring {α : Type} (C : ℕ) (hC : 0 < C)
    (paths : List (List α)) :
    (ReplayBuffer.insert_paths (ReplayBuffer.empty α C) paths).size
        = min C paths.flatten.length
    ∧ ∀ j, j < paths.flatten.length → paths.flatten.length - C ≤ j →
        (ReplayBuffer.insert_paths (ReplayBuffer.empty α C) paths).storage (j % C)
          = paths.flatten[j]? := by
  obtain ⟨_, hsize, _, hstore⟩ := foldl_add_invariant C hC paths.flatten
  rw [insert_paths_eq_foldl_add]
  exact ⟨hsize, hstore⟩

/-- Witness for C7: capacity 2, inserting paths `[1]` and `[2, 3]`; the
size caps at 2 and the ring holds the last two transitions: slot 0 holds 3
(which overwrote 1, the oldest) and slot 1 holds 2. -/
theorem replay_buffer_ring_witness :
    (ReplayBuffer.insert_paths (ReplayBuffer.empty ℕ 2) [[1], [2, 3]]).size = 2
    ∧ (ReplayBuffer.insert_paths (ReplayBuffer.empty ℕ 2) [[1], [2, 3]]).storage 0
        = some 3
    ∧ (ReplayBuffer.insert_paths (ReplayBuffer.empty ℕ 2) [[1], [2, 3]]).storage 1
        = some 2 := by
  obtain ⟨hsize, hstore⟩ := replay_buffer_ring 2 (by decide) [[1], [2, 3]]
  refine ⟨by rw [hsize]; rfl, ?_, ?_⟩
  · have h2 := hstore 2 (by decide) (by decide)
    simpa using h2
  · have h1 := hstore 1 (by decide) (by decide)
    simpa using h1

end DrlAlgos
